import Mathlib

/-!
Verification of the execution orchestrator in `process.go` of marema31/venom.

The Go source is shallowly embedded: the external collaborators (the
registered executors and the check evaluator `applyChecks`) are inputs of the
embedded functions, given as per-attempt outcome data, while every piece of
control flow and bookkeeping of `process.go` itself (the retry loop of
`runTestStep`, the select race of `runTestStepExecutor`, the per-case and
per-suite loops, the collector goroutine of `Process`, and the alias parsing)
is translated statement by statement.
-/

namespace Venom

/-- Failure mirrors the Go `Failure` record: one reported message. -/
structure Failure where
  Value : String
deriving DecidableEq, Repr

/-- TestCase keeps the two append-only record sequences that `process.go`
mutates on a test case: `tc.Errors` and `tc.Failures`. -/
structure TestCase where
  Errors : List Failure := []
  Failures : List Failure := []
deriving DecidableEq, Repr

/-- ExecutorResult is the flattened dotted-path to value view produced by an
executor (`map[string]string` after flattening). -/
abbrev ExecutorResult := List (String × String)

/-- timeoutMsg renders `fmt.Errorf("Timeout after %d second(s)", e.timeout)`. -/
def timeoutMsg (timeout : Nat) : String :=
  "Timeout after " ++ toString timeout ++ " second(s)"

/-- apos is the single-quote character, kept out of string literals. -/
def apos : String := String.singleton (Char.ofNat 39)

/-- failureAfterMsg renders the `fmt.Sprintf` message of the synthetic
attempt-count failure, an apostrophe followed by
`s a failure after %d attempt(s)` appended to `It`. -/
def failureAfterMsg (retry : Nat) : String :=
  "It" ++ apos ++ "s a failure after " ++ toString retry ++ " attempt(s)"

/-! ## runTestStepExecutor (process.go lines 283 to 304)

The Go function spawns a goroutine running `e.executor.Run` and then selects
over three channels.  The goroutine body is

  result, err := e.executor.Run(l, aliases, step)
  cherr <- err
  ch <- result

so its send sequence is always `cherr` first and `ch` second.  The embedding
keeps the three select branches exactly as written and feeds the select with
the first pending event: the timeout if the deadline elapses before `Run`
returns, otherwise the first element of the send sequence. -/

/-- ChanMsg is a message pending on one of the two result channels. -/
inductive ChanMsg where
  | cherrMsg (err : Option String)
  | chMsg (result : ExecutorResult)

/-- execGoroutineSends is the send sequence of the goroutine spawned by
`runTestStepExecutor`: the error on `cherr`, then the result on `ch`. -/
def execGoroutineSends (result : ExecutorResult) (err : Option String) : List ChanMsg :=
  [ChanMsg.cherrMsg err, ChanMsg.chMsg result]

/-- selectStep is the three-branch `select` of `runTestStepExecutor`:
`none` stands for the context deadline firing first. -/
def selectStep (timeout : Nat) : Option ChanMsg → Option ExecutorResult × Option String
  | some (ChanMsg.cherrMsg err) => (none, err)
  | some (ChanMsg.chMsg result) => (some result, none)
  | none => (none, some (timeoutMsg timeout))

/-- ExecEvent says which external event resolves the per-attempt race first:
either `Run` returns (with its result and error) before the deadline, or the
deadline elapses first. -/
inductive ExecEvent where
  | runReturns (result : ExecutorResult) (err : Option String)
  | deadline

/-- runTestStepExecutor embeds the Go function of the same name: the select
receives the first pending signal. -/
def runTestStepExecutor (timeout : Nat) (ev : ExecEvent) :
    Option ExecutorResult × Option String :=
  match ev with
  | ExecEvent.deadline => selectStep timeout none
  | ExecEvent.runReturns result err =>
      selectStep timeout (execGoroutineSends result err).head?

/-! ## runTestStep (process.go lines 246 to 281)

One loop attempt either ends with `runTestStepExecutor` returning a non-nil
error (branch `tc.Failures = append(...); continue`), or hands the result to
`applyChecks`, whose output is the triple `(isOK, errors, failures)`.  The
attempt outcomes are the external input of the embedding. -/

/-- AttemptOutcome is what one loop attempt observes from the executor
gateway plus the check evaluator. -/
inductive AttemptOutcome where
  | execError (msg : String)
  | checked (isOK : Bool) (errors : List Failure) (failures : List Failure)

/-- StepLoopState carries the local variables of `runTestStep` (`retry`,
`isOK`, `errors`, `failures`), the failures appended to the test case from
inside the loop, the number of executor invocations, and the trace of
`time.Sleep` calls as (attempt index, seconds) pairs. -/
structure StepLoopState where
  retry : Nat := 0
  isOK : Bool := false
  errors : List Failure := []
  failures : List Failure := []
  tcFailures : List Failure := []
  execCalls : Nat := 0
  sleeps : List (Nat × Nat) := []
deriving DecidableEq, Repr

/-- sleepStep is the head of the loop body:
`if retry > 1 && !isOK { time.Sleep(delay seconds) }`. -/
def sleepStep (delay : Nat) (s : StepLoopState) : StepLoopState :=
  if 1 < s.retry ∧ s.isOK = false then
    { s with sleeps := s.sleeps ++ [(s.retry, delay)] }
  else s

/-- execErrStep is the `err != nil` branch of the loop body:
append the error message to `tc.Failures` and continue (so `retry++`). -/
def execErrStep (delay : Nat) (s : StepLoopState) (msg : String) : StepLoopState :=
  let s1 := sleepStep delay s
  { s1 with tcFailures := s1.tcFailures ++ [{ Value := msg }],
            execCalls := s1.execCalls + 1, retry := s1.retry + 1 }

/-- checkedStep is the successful-call branch: the triple assignment
`isOK, errors, failures = applyChecks(...)` after one executor invocation. -/
def checkedStep (delay : Nat) (s : StepLoopState) (ok : Bool)
    (errs fails : List Failure) : StepLoopState :=
  let s1 := sleepStep delay s
  { s1 with isOK := ok, errors := errs, failures := fails, execCalls := s1.execCalls + 1 }

/-- nextRetry is the `retry++` of the for statement. -/
def nextRetry (s : StepLoopState) : StepLoopState :=
  { s with retry := s.retry + 1 }

/-- runTestStepLoop is the for loop
`for retry = 0; retry <= e.retry && !isOK; retry++ { ... }` with the break on
`isOK` leaving `retry` unchanged.  The fuel argument only bounds the
recursion; `retryCfg + 1` fuel always suffices since `retry` grows by one per
iteration. -/
def runTestStepLoop (retryCfg delay : Nat) (outcome : Nat → AttemptOutcome) :
    Nat → StepLoopState → StepLoopState
  | 0, s => s
  | fuel + 1, s =>
    if s.retry ≤ retryCfg ∧ s.isOK = false then
      match outcome s.retry with
      | AttemptOutcome.execError msg =>
          runTestStepLoop retryCfg delay outcome fuel (execErrStep delay s msg)
      | AttemptOutcome.checked ok errs fails =>
          if ok then checkedStep delay s ok errs fails
          else runTestStepLoop retryCfg delay outcome fuel
            (nextRetry (checkedStep delay s ok errs fails))
    else s

/-- runTestStep embeds the Go function of the same name: run the retry loop,
then append the last `errors` and `failures` to the case, then maybe append
the synthetic attempt-count failure guarded by
`retry > 0 && (len(failures) > 0 || len(errors) > 0)`. -/
def runTestStep (retryCfg delay : Nat) (outcome : Nat → AttemptOutcome)
    (tc : TestCase) : TestCase × StepLoopState :=
  let s := runTestStepLoop retryCfg delay outcome (retryCfg + 1) {}
  let tc1 : TestCase := { tc with Failures := tc.Failures ++ s.tcFailures }
  let tc2 : TestCase := { tc1 with Errors := tc1.Errors ++ s.errors }
  let tc3 : TestCase := { tc2 with Failures := tc2.Failures ++ s.failures }
  let tc4 : TestCase :=
    if 0 < s.retry ∧ (s.failures ≠ [] ∨ s.errors ≠ []) then
      { tc3 with Failures := tc3.Failures ++ [{ Value := failureAfterMsg s.retry }] }
    else tc3
  (tc4, s)

/-! ## runTestCase (process.go lines 223 to 244) -/

/-- StepSpec is one entry of `tc.TestSteps` together with the behaviour of
its external collaborators: either `getExecutorWrap` fails, or it resolves to
a retry and delay configuration plus the per-attempt outcomes. -/
inductive StepSpec where
  | resolveError (msg : String)
  | resolved (retryCfg delay : Nat) (outcome : Nat → AttemptOutcome)

/-- runTestCaseAux is the step loop of `runTestCase`: on a resolution error
append one record to `tc.Errors` and break; otherwise run the step and break
when `len(tc.Failures) > 0`.  It also returns the invocation trace: for every
step on which `runTestStep` was invoked, its index and the case state right
after it. -/
def runTestCaseAux : List StepSpec → Nat → TestCase → TestCase × List (Nat × TestCase)
  | [], _, tc => (tc, [])
  | StepSpec.resolveError msg :: _, _, tc =>
      ({ tc with Errors := tc.Errors ++ [{ Value := msg }] }, [])
  | StepSpec.resolved r d outcome :: rest, i, tc =>
      let tcA := (runTestStep r d outcome tc).1
      if tcA.Failures = [] then
        let res := runTestCaseAux rest (i + 1) tcA
        (res.1, (i, tcA) :: res.2)
      else (tcA, [(i, tcA)])

/-- runTestCase runs the steps of one freshly parsed case (empty records). -/
def runTestCase (steps : List StepSpec) : TestCase × List (Nat × TestCase) :=
  runTestCaseAux steps 0 {}

/-- attemptIdxs lists `n` consecutive indices starting at `i`. -/
def attemptIdxs : Nat → Nat → List Nat
  | _, 0 => []
  | i, n + 1 => i :: attemptIdxs (i + 1) n

/-! ## runTestSuite (process.go lines 178 to 221) and the Process collector
(process.go lines 58 to 73 and 101 to 110) -/

/-- TestCaseDef is a parsed test case as the suite runner sees it: its
`Skipped` marker and its steps. -/
structure TestCaseDef where
  Skipped : Nat
  TestSteps : List StepSpec

/-- TestSuite keeps the four suite counters of the Go `TestSuite`. -/
structure TestSuite where
  Failures : Nat := 0
  Errors : Nat := 0
  Skipped : Nat := 0
  Total : Nat := 0
deriving DecidableEq, Repr

/-- parseSuite is the parse-phase scan of `Process` (lines 101 to 110):
`ts.Skipped++` for every case with `tc.Skipped == 1`, and
`ts.Total = len(ts.TestCases)`. -/
def parseSuite (cases : List TestCaseDef) : TestSuite :=
  { Skipped := (cases.filter (fun tc => tc.Skipped == 1)).length,
    Total := cases.length }

/-- runSuiteCase is one iteration of the case loop of `runTestSuite`: run the
case when `tc.Skipped == 0`, then fold its record counts and its `Skipped`
marker into the suite counters. -/
def runSuiteCase (ts : TestSuite) (tc : TestCaseDef) : TestSuite :=
  let tcRun := if tc.Skipped == 0 then (runTestCase tc.TestSteps).1 else ({} : TestCase)
  let ts1 := if 0 < tcRun.Failures.length then
    { ts with Failures := ts.Failures + tcRun.Failures.length } else ts
  let ts2 := if 0 < tcRun.Errors.length then
    { ts1 with Errors := ts1.Errors + tcRun.Errors.length } else ts1
  if 0 < tc.Skipped then { ts2 with Skipped := ts2.Skipped + tc.Skipped } else ts2

/-- runTestSuite embeds the case loop of the Go function of the same name. -/
def runTestSuite (cases : List TestCaseDef) (ts : TestSuite) : TestSuite :=
  cases.foldl runSuiteCase ts

/-- Tests keeps the aggregate counters of the Go `Tests` value built by the
collector goroutine of `Process`. -/
structure Tests where
  TotalOK : Nat := 0
  TotalKO : Nat := 0
  TotalSkipped : Nat := 0
  Total : Nat := 0
deriving DecidableEq, Repr

/-- collectSuite is the body of the collector goroutine of `Process` (lines
58 to 73) for one completed suite: fold its `Failures` count into `TotalKO`
or its case count into `TotalOK`, add its `Skipped` count, and recompute
`Total`.  `nCases` is `len(t.TestCases)`. -/
def collectSuite (tr : Tests) (nCases : Nat) (t : TestSuite) : Tests :=
  let tr1 := if 0 < t.Failures then { tr with TotalKO := tr.TotalKO + t.Failures }
             else { tr with TotalOK := tr.TotalOK + (nCases - t.Failures) }
  let tr2 := if 0 < t.Skipped then
    { tr1 with TotalSkipped := tr1.TotalSkipped + t.Skipped } else tr1
  { tr2 with Total := tr2.TotalKO + tr2.TotalOK + tr2.TotalSkipped }

/-- processSuites is the run and collection pipeline of `Process` for a list
of parsed suites: each suite is parsed, run, and folded into the aggregate by
the single collector.  The collector consumes completed suites one at a time;
its counter updates commute, so the fold order does not affect the final
aggregate. -/
def processSuites (suites : List (List TestCaseDef)) : Tests :=
  suites.foldl (fun tr cs => collectSuite tr cs.length (runTestSuite cs (parseSuite cs))) {}

/-! ## Alias parsing (process.go lines 28 to 34) -/

/-- splitColonChars is `strings.Split(a, ":")` on the character list of `a`. -/
def splitColonChars : List Char → List (List Char)
  | [] => [[]]
  | c :: cs =>
    if c = ':' then [] :: splitColonChars cs
    else
      match splitColonChars cs with
      | s :: ss => (c :: s) :: ss
      | [] => [[c]]

/-- joinChars is `strings.Join(_, "")`: plain concatenation of the chunks. -/
def joinChars (l : List (List Char)) : List Char :=
  l.foldr (fun a b => a ++ b) []

/-- mapUpsert is Go map assignment `m[k] = v` on an association list. -/
def mapUpsert (m : List (String × String)) (k v : String) : List (String × String) :=
  if m.any (fun p => p.1 == k) then
    m.map (fun p => if p.1 == k then (k, v) else p)
  else m ++ [(k, v)]

/-- processAlias is one iteration of the alias loop of `Process`: split on
colon, skip when fewer than two tokens, else
`aliases[t[0]] = strings.Join(t[1:], "")`. -/
def processAlias (m : List (String × String)) (a : String) : List (String × String) :=
  match splitColonChars a.toList with
  | k :: r1 :: rest => mapUpsert m ⟨k⟩ ⟨joinChars (r1 :: rest)⟩
  | _ => m

/-- processAliases is the whole alias loop of `Process`. -/
def processAliases (aliasList : List String) : List (String × String) :=
  aliasList.foldl processAlias []

/-- joinCharsColon rejoins chunks with a colon separator. -/
def joinCharsColon : List (List Char) → List Char
  | [] => []
  | [s] => s
  | s :: t :: rest => s ++ ':' :: joinCharsColon (t :: rest)

/-- claimProcessAlias is the alias step as the claim words it: the remainder
is rejoined with a colon separator. -/
def claimProcessAlias (m : List (String × String)) (a : String) : List (String × String) :=
  match splitColonChars a.toList with
  | k :: r1 :: rest => mapUpsert m ⟨k⟩ ⟨joinCharsColon (r1 :: rest)⟩
  | _ => m

/-- claimProcessAliases is the alias loop as the claim words it. -/
def claimProcessAliases (aliasList : List String) : List (String × String) :=
  aliasList.foldl claimProcessAlias []

/-- specAliasEntry is the amended reading of the alias step: the key is
everything before the first colon, the value is everything after it with all
further colons dropped, and an entry with no colon is skipped. -/
def specAliasEntry (a : String) : Option (String × String) :=
  let cs := a.toList
  if ':' ∈ cs then
    some (⟨cs.takeWhile (fun c => c != ':')⟩,
          ⟨((cs.dropWhile (fun c => c != ':')).drop 1).filter (fun c => c != ':')⟩)
  else none

/-- specProcessAliases folds specAliasEntry over the alias list. -/
def specProcessAliases (aliasList : List String) : List (String × String) :=
  aliasList.foldl (fun m a =>
    match specAliasEntry a with
    | some kv => mapUpsert m kv.1 kv.2
    | none => m) []

/-! ## The check-evaluator contract

Section 4.5 of the design defines a fully OK attempt as one with zero Errors
and zero Failures from the evaluator, so an outcome is coherent when a true
`isOK` flag comes with two empty lists. -/

/-- coherentOutcome says a passing checked outcome carries no records. -/
def coherentOutcome : AttemptOutcome → Bool
  | AttemptOutcome.checked true errs fails => errs.isEmpty && fails.isEmpty
  | _ => true

/-- stepCoherent asks coherence of every attempt outcome of a resolved step. -/
def stepCoherent : StepSpec → Prop
  | StepSpec.resolveError _ => True
  | StepSpec.resolved _ _ outcome => ∀ n, coherentOutcome (outcome n) = true

/-- CoherentSteps asks coherence of every step of a case. -/
def CoherentSteps (steps : List StepSpec) : Prop :=
  ∀ sp ∈ steps, stepCoherent sp

/-- sleepTrace is the sleep trace accumulated over `n` exhausting loop
iterations starting at attempt index `i` with a delay of `d` seconds. -/
def sleepTrace (i n d : Nat) : List (Nat × Nat) :=
  ((attemptIdxs i n).filter (fun j => decide (1 < j))).map (fun j => (j, d))

/-- exStepFail is a step whose single attempt fails its check. -/
def exStepFail : StepSpec :=
  StepSpec.resolved 0 0
    (fun _ => AttemptOutcome.checked false [] [{ Value := "step A fails" }])

/-- exStepOK is a step whose single attempt passes its check. -/
def exStepOK : StepSpec :=
  StepSpec.resolved 0 0 (fun _ => AttemptOutcome.checked true [] [])

/-- exSteps is the three-step case [A(fails), B, C] of the claim. -/
def exSteps : List StepSpec := [exStepFail, exStepOK, exStepOK]

/-- exCases is a suite with two skipped cases and one run case. -/
def exCases : List TestCaseDef := [⟨1, []⟩, ⟨0, []⟩, ⟨1, []⟩]

/-- c6suite is a passing two-case suite with one skipped case. -/
def c6suite : List TestCaseDef := [⟨1, []⟩, ⟨0, []⟩]

/-! ## Helper lemmas -/

@[simp] theorem sleepStep_retry (d : Nat) (s : StepLoopState) : (sleepStep d s).retry = s.retry := by
  unfold sleepStep; split <;> rfl

@[simp] theorem sleepStep_isOK (d : Nat) (s : StepLoopState) : (sleepStep d s).isOK = s.isOK := by
  unfold sleepStep; split <;> rfl

@[simp] theorem sleepStep_errors (d : Nat) (s : StepLoopState) : (sleepStep d s).errors = s.errors := by
  unfold sleepStep; split <;> rfl

@[simp] theorem sleepStep_failures (d : Nat) (s : StepLoopState) : (sleepStep d s).failures = s.failures := by
  unfold sleepStep; split <;> rfl

@[simp] theorem sleepStep_tcFailures (d : Nat) (s : StepLoopState) : (sleepStep d s).tcFailures = s.tcFailures := by
  unfold sleepStep; split <;> rfl

@[simp] theorem sleepStep_execCalls (d : Nat) (s : StepLoopState) : (sleepStep d s).execCalls = s.execCalls := by
  unfold sleepStep; split <;> rfl

theorem sleepStep_sleeps_of_notOK (d : Nat) (s : StepLoopState) (h : s.isOK = false) :
    (sleepStep d s).sleeps = s.sleeps ++ (if 1 < s.retry then [(s.retry, d)] else []) := by
  unfold sleepStep
  by_cases h1 : 1 < s.retry <;> simp [h, h1]

theorem runTestStepLoop_stop (r d : Nat) (o : Nat → AttemptOutcome) (fuel : Nat)
    (s : StepLoopState) (h : ¬(s.retry ≤ r ∧ s.isOK = false)) :
    runTestStepLoop r d o fuel s = s := by
  cases fuel with
  | zero => rfl
  | succ n => simp [runTestStepLoop, h]

theorem runTestStepLoop_retry_le (r d : Nat) (o : Nat → AttemptOutcome) :
    ∀ (fuel : Nat) (s : StepLoopState), s.retry ≤ (runTestStepLoop r d o fuel s).retry := by
  intro fuel
  induction fuel with
  | zero => intro s; simp [runTestStepLoop]
  | succ n ih =>
    intro s
    rw [runTestStepLoop]
    split
    · cases ho : o s.retry with
      | execError msg =>
        dsimp only
        have h1 := ih (execErrStep d s msg)
        have h2 : (execErrStep d s msg).retry = s.retry + 1 := by
          simp [execErrStep]
        omega
      | checked ok errs fails =>
        cases ok with
        | true => simp [checkedStep]
        | false =>
          dsimp only
          rw [if_neg (by simp : ¬(false = true))]
          have h1 := ih (nextRetry (checkedStep d s false errs fails))
          have h2 : (nextRetry (checkedStep d s false errs fails)).retry = s.retry + 1 := by
            simp [nextRetry, checkedStep]
          omega
    · exact Nat.le_refl _



theorem runTestStepLoop_retry_fix (r d : Nat) (o : Nat → AttemptOutcome) (fuel : Nat)
    (s : StepLoopState) (hok : s.isOK = false)
    (hco : ∀ n, coherentOutcome (o n) = true)
    (h : (runTestStepLoop r d o fuel s).retry = s.retry) :
    runTestStepLoop r d o fuel s = s ∨
      ((runTestStepLoop r d o fuel s).errors = [] ∧
        (runTestStepLoop r d o fuel s).failures = []) := by
  cases fuel with
  | zero => exact Or.inl rfl
  | succ n =>
    by_cases hc : s.retry ≤ r ∧ s.isOK = false
    · rw [runTestStepLoop] at h ⊢
      rw [if_pos hc] at h ⊢
      cases ho : o s.retry with
      | execError msg =>
        rw [ho] at h
        dsimp only at h ⊢
        exfalso
        have h1 := runTestStepLoop_retry_le r d o n (execErrStep d s msg)
        have h2 : (execErrStep d s msg).retry = s.retry + 1 := by
          simp [execErrStep]
        omega
      | checked ok errs fails =>
        rw [ho] at h
        dsimp only at h ⊢
        cases ok with
        | true =>
          right
          have hcs := hco s.retry
          rw [ho] at hcs
          simp [coherentOutcome, List.isEmpty_iff] at hcs
          obtain ⟨he, hf⟩ := hcs
          simp [checkedStep, he, hf]
        | false =>
          exfalso
          simp only [if_neg (show ¬(false = true) by simp)] at h
          have h1 := runTestStepLoop_retry_le r d o n (nextRetry (checkedStep d s false errs fails))
          have h2 : (nextRetry (checkedStep d s false errs fails)).retry = s.retry + 1 := by
            simp [nextRetry, checkedStep]
          omega
    · rw [runTestStepLoop_stop r d o _ s hc]
      exact Or.inl rfl




theorem sleepTrace_zero (i d : Nat) : sleepTrace i 0 d = [] := rfl

theorem sleepTrace_succ (i n d : Nat) :
    sleepTrace i (n + 1) d =
      (if 1 < i then [(i, d)] else []) ++ sleepTrace (i + 1) n d := by
  by_cases h : 1 < i <;> simp [sleepTrace, attemptIdxs, h]

theorem runTestStepLoop_exhaust_checked (r d : Nat) (E F : Nat → List Failure) :
    ∀ (n : Nat) (s : StepLoopState) (fuel : Nat), s.isOK = false →
      s.retry + n = r + 1 → n ≤ fuel →
      runTestStepLoop r d (fun i => AttemptOutcome.checked false (E i) (F i)) fuel s =
        { retry := r + 1, isOK := false,
          errors := if n = 0 then s.errors else E r,
          failures := if n = 0 then s.failures else F r,
          tcFailures := s.tcFailures,
          execCalls := s.execCalls + n,
          sleeps := s.sleeps ++ sleepTrace s.retry n d } := by
  intro n
  induction n with
  | zero =>
    intro s fuel hok hr _
    rw [runTestStepLoop_stop]
    · cases s
      simp_all [sleepTrace_zero]
    · simp only [not_and]
      intro hle
      omega
  | succ m ih =>
    intro s fuel hok hr hfuel
    cases fuel with
    | zero => omega
    | succ f =>
      rw [runTestStepLoop]
      rw [if_pos ⟨by omega, hok⟩]
      dsimp only
      rw [if_neg (show ¬(false = true) by simp)]
      rw [ih (nextRetry (checkedStep d s false (E s.retry) (F s.retry))) f
            (by simp [nextRetry, checkedStep])
            (by simp [nextRetry, checkedStep]; omega)
            (by omega)]
      simp only [nextRetry, checkedStep, sleepStep_retry, sleepStep_errors,
        sleepStep_failures, sleepStep_tcFailures, sleepStep_execCalls]
      rw [sleepStep_sleeps_of_notOK d s hok]
      have hE : (if m = 0 then E s.retry else E r) = E r := by
        rcases Nat.eq_zero_or_pos m with hm | hm
        · subst hm
          have hsr : s.retry = r := by omega
          simp [hsr]
        · rw [if_neg (by omega)]
      have hF : (if m = 0 then F s.retry else F r) = F r := by
        rcases Nat.eq_zero_or_pos m with hm | hm
        · subst hm
          have hsr : s.retry = r := by omega
          simp [hsr]
        · rw [if_neg (by omega)]
      rw [hE, hF, sleepTrace_succ,
        if_neg (Nat.succ_ne_zero m), if_neg (Nat.succ_ne_zero m)]
      simp only [StepLoopState.mk.injEq, true_and]
      exact ⟨by omega, by simp [List.append_assoc]⟩



theorem runTestStepLoop_exhaust_execError (r d : Nat) (M : Nat → String) :
    ∀ (n : Nat) (s : StepLoopState) (fuel : Nat), s.isOK = false →
      s.retry + n = r + 1 → n ≤ fuel →
      runTestStepLoop r d (fun i => AttemptOutcome.execError (M i)) fuel s =
        { retry := r + 1, isOK := false,
          errors := s.errors,
          failures := s.failures,
          tcFailures := s.tcFailures ++ (attemptIdxs s.retry n).map (fun i => { Value := M i }),
          execCalls := s.execCalls + n,
          sleeps := s.sleeps ++ sleepTrace s.retry n d } := by
  intro n
  induction n with
  | zero =>
    intro s fuel hok hr _
    rw [runTestStepLoop_stop]
    · cases s
      simp_all [sleepTrace_zero, attemptIdxs]
    · simp only [not_and]
      intro hle
      omega
  | succ m ih =>
    intro s fuel hok hr hfuel
    cases fuel with
    | zero => omega
    | succ f =>
      rw [runTestStepLoop]
      rw [if_pos ⟨by omega, hok⟩]
      dsimp only
      rw [ih (execErrStep d s (M s.retry)) f
            (by simp [execErrStep, hok])
            (by simp [execErrStep]; omega)
            (by omega)]
      simp only [execErrStep, sleepStep_retry, sleepStep_errors, sleepStep_isOK,
        sleepStep_failures, sleepStep_tcFailures, sleepStep_execCalls]
      rw [sleepStep_sleeps_of_notOK d s hok, sleepTrace_succ]
      simp only [StepLoopState.mk.injEq, true_and, attemptIdxs]
      refine ⟨by simp [List.append_assoc], by omega, by simp [List.append_assoc]⟩



theorem runTestStep_checked_eq (r d : Nat) (E F : Nat → List Failure) (tc : TestCase) :
    runTestStep r d (fun i => AttemptOutcome.checked false (E i) (F i)) tc =
      ({ Errors := tc.Errors ++ E r,
         Failures := tc.Failures ++ F r ++
           (if F r ≠ [] ∨ E r ≠ [] then [{ Value := failureAfterMsg (r + 1) }] else []) },
       { retry := r + 1, isOK := false, errors := E r, failures := F r,
         tcFailures := [], execCalls := r + 1, sleeps := sleepTrace 0 (r + 1) d }) := by
  unfold runTestStep
  rw [runTestStepLoop_exhaust_checked r d E F (r + 1)
        {} (r + 1) rfl (by simp) (Nat.le_refl _)]
  simp only [if_neg (Nat.succ_ne_zero r)]
  simp only [Prod.mk.injEq, TestCase.mk.injEq, Nat.succ_pos, true_and]
  by_cases h : F r ≠ [] ∨ E r ≠ [] <;> simp [h]

theorem runTestStep_execError_eq (r d : Nat) (M : Nat → String) (tc : TestCase) :
    runTestStep r d (fun i => AttemptOutcome.execError (M i)) tc =
      ({ Errors := tc.Errors,
         Failures := tc.Failures ++ (attemptIdxs 0 (r + 1)).map (fun i => { Value := M i }) },
       { retry := r + 1, isOK := false, errors := [], failures := [],
         tcFailures := (attemptIdxs 0 (r + 1)).map (fun i => { Value := M i }),
         execCalls := r + 1, sleeps := sleepTrace 0 (r + 1) d }) := by
  unfold runTestStep
  rw [runTestStepLoop_exhaust_execError r d M (r + 1)
        {} (r + 1) rfl (by simp) (Nat.le_refl _)]
  simp [Prod.mk.injEq, TestCase.mk.injEq]



theorem runTestStep_quiet (r d : Nat) (o : Nat → AttemptOutcome)
    (hco : ∀ n, coherentOutcome (o n) = true) (tc : TestCase)
    (h : ((runTestStep r d o tc).1).Failures = tc.Failures) :
    ((runTestStep r d o tc).1).Errors = tc.Errors := by
  unfold runTestStep at h ⊢
  set s := runTestStepLoop r d o (r + 1) {} with hs
  dsimp only at h ⊢
  by_cases hcond : 0 < s.retry ∧ (s.failures ≠ [] ∨ s.errors ≠ [])
  · rw [if_pos hcond] at h
    exfalso
    have hlen := congrArg List.length h
    simp [List.length_append] at hlen
  · rw [if_neg hcond] at h ⊢
    dsimp only at h ⊢
    have hlen := congrArg List.length h
    simp [List.length_append] at hlen
    rcases not_and_or.mp hcond with h0 | hrec
    · have hretry : s.retry = 0 := by omega
      have hfix := runTestStepLoop_retry_fix r d o (r + 1) {} rfl hco
        (by rw [← hs, hretry])
      rw [← hs] at hfix
      rcases hfix with heq | ⟨he, _⟩
      · rw [heq]
        simp
      · rw [he]
        simp
    · push_neg at hrec
      rw [hrec.2]
      simp



theorem attemptIdxs_le : ∀ (n i x : Nat), x ∈ attemptIdxs i n → i ≤ x := by
  intro n
  induction n with
  | zero => intro i x h; simp [attemptIdxs] at h
  | succ m ih =>
    intro i x h
    rw [attemptIdxs] at h
    rcases List.mem_cons.mp h with h1 | h1
    · omega
    · have := ih (i + 1) x h1
      omega

theorem runTestCaseAux_stop (steps : List StepSpec) :
    ∀ (i : Nat) (tc : TestCase), CoherentSteps steps → tc.Failures = [] → tc.Errors = [] →
      ((runTestCaseAux steps i tc).2.map Prod.fst =
        attemptIdxs i (runTestCaseAux steps i tc).2.length) ∧
      (∀ p ∈ (runTestCaseAux steps i tc).2, ∀ q ∈ (runTestCaseAux steps i tc).2,
        p.1 < q.1 → p.2.Failures = [] ∧ p.2.Errors = []) := by
  induction steps with
  | nil =>
    intro i tc _ _ _
    exact ⟨rfl, by simp [runTestCaseAux]⟩
  | cons sp rest ih =>
    intro i tc hco hF hE
    cases sp with
    | resolveError msg =>
      exact ⟨rfl, by simp [runTestCaseAux]⟩
    | resolved r d outc =>
      have hcoh : ∀ n, coherentOutcome (outc n) = true :=
        hco _ (List.mem_cons_self _ _)
      dsimp only [runTestCaseAux]
      by_cases hfa : ((runTestStep r d outc tc).1).Failures = []
      · rw [if_pos hfa]
        have hquiet : ((runTestStep r d outc tc).1).Errors = [] := by
          have h := runTestStep_quiet r d outc hcoh tc (by rw [hfa, hF])
          rw [h, hE]
        have hrest := ih (i + 1) ((runTestStep r d outc tc).1)
          (fun sp2 h2 => hco sp2 (List.mem_cons_of_mem _ h2)) hfa hquiet
        constructor
        · simp only [List.map_cons, List.length_cons, attemptIdxs]
          rw [hrest.1]
        · intro p hp q hq hpq
          rcases List.mem_cons.mp hp with hph | hpt
          · rw [hph]
            exact ⟨hfa, hquiet⟩
          · rcases List.mem_cons.mp hq with hqh | hqt
            · exfalso
              have hm : p.1 ∈ ((runTestCaseAux rest (i + 1) ((runTestStep r d outc tc).1)).2.map Prod.fst) :=
                List.mem_map_of_mem _ hpt
              rw [hrest.1] at hm
              have := attemptIdxs_le _ _ _ hm
              rw [hqh] at hpq
              simp at hpq
              omega
            · exact hrest.2 p hpt q hqt hpq
      · rw [if_neg hfa]
        constructor
        · rfl
        · intro p hp q hq hpq
          simp at hp hq
          rw [hp, hq] at hpq
          simp at hpq



theorem runSuiteCase_Skipped (ts : TestSuite) (tc : TestCaseDef) :
    (runSuiteCase ts tc).Skipped = ts.Skipped + tc.Skipped := by
  unfold runSuiteCase
  simp only [apply_ite TestSuite.Skipped, ite_self]
  split_ifs <;> simp <;> omega

theorem runTestSuite_Skipped :
    ∀ (cases : List TestCaseDef) (ts : TestSuite),
      (runTestSuite cases ts).Skipped = ts.Skipped + (cases.map (fun tc => tc.Skipped)).sum := by
  intro cases
  induction cases with
  | nil => intro ts; simp [runTestSuite]
  | cons tc rest ih =>
    intro ts
    simp only [runTestSuite, List.foldl_cons, List.map_cons, List.sum_cons]
    rw [show List.foldl runSuiteCase (runSuiteCase ts tc) rest =
          runTestSuite rest (runSuiteCase ts tc) from rfl, ih]
    rw [runSuiteCase_Skipped]
    omega

theorem sum_skipped_eq_count :
    ∀ (cases : List TestCaseDef), (∀ tc ∈ cases, tc.Skipped = 0 ∨ tc.Skipped = 1) →
      (cases.map (fun tc => tc.Skipped)).sum =
        (cases.filter (fun tc => tc.Skipped == 1)).length := by
  intro cases
  induction cases with
  | nil => intro _; simp
  | cons tc rest ih =>
    intro h
    have htc := h tc (List.mem_cons_self _ _)
    have hrest := ih (fun x hx => h x (List.mem_cons_of_mem _ hx))
    rcases htc with h0 | h1
    · simp [List.filter_cons, h0, hrest]
    · simp [List.filter_cons, h1, hrest]
      omega

theorem collectSuite_TotalSkipped (tr : Tests) (n : Nat) (t : TestSuite) :
    (collectSuite tr n t).TotalSkipped = tr.TotalSkipped + t.Skipped := by
  unfold collectSuite
  simp only [apply_ite Tests.TotalSkipped, ite_self]
  split_ifs <;> simp <;> omega

theorem collectSuite_sum_invariant (tr : Tests) (n : Nat) (t : TestSuite) :
    (collectSuite tr n t).Total =
      (collectSuite tr n t).TotalOK + (collectSuite tr n t).TotalKO +
        (collectSuite tr n t).TotalSkipped := by
  unfold collectSuite
  simp only [apply_ite Tests.TotalSkipped, apply_ite Tests.TotalOK,
    apply_ite Tests.TotalKO, apply_ite Tests.Total, ite_self]
  split_ifs <;> simp <;> omega



@[simp] theorem joinChars_nil : joinChars [] = [] := rfl

@[simp] theorem joinChars_cons (a : List Char) (l : List (List Char)) :
    joinChars (a :: l) = a ++ joinChars l := rfl

theorem splitColonChars_ne_nil : ∀ (cs : List Char), splitColonChars cs ≠ [] := by
  intro cs
  induction cs with
  | nil => simp [splitColonChars]
  | cons c cs ih =>
    rw [splitColonChars]
    by_cases h : c = ':'
    · simp [h]
    · rw [if_neg h]
      rcases hsp : splitColonChars cs with _ | ⟨s, ss⟩
      · exact absurd hsp ih
      · simp

theorem splitColonChars_no_colon : ∀ (cs : List Char), ':' ∉ cs → splitColonChars cs = [cs] := by
  intro cs
  induction cs with
  | nil => intro _; rfl
  | cons c cs ih =>
    intro h
    have hc : c ≠ ':' := fun hc => h (hc ▸ List.mem_cons_self _ _)
    have hcs : ':' ∉ cs := fun hm => h (List.mem_cons_of_mem _ hm)
    rw [splitColonChars, if_neg hc, ih hcs]

theorem splitColonChars_with_colon : ∀ (cs : List Char), ':' ∈ cs →
    splitColonChars cs =
      cs.takeWhile (fun c => c != ':') ::
        splitColonChars ((cs.dropWhile (fun c => c != ':')).drop 1) := by
  intro cs
  induction cs with
  | nil => intro h; simp at h
  | cons c cs ih =>
    intro h
    by_cases hc : c = ':'
    · subst hc
      rw [splitColonChars, if_pos rfl]
      simp [List.takeWhile_cons, List.dropWhile_cons]
    · have hcs : ':' ∈ cs := by
        rcases List.mem_cons.mp h with h1 | h1
        · exact absurd h1.symm hc
        · exact h1
      rw [splitColonChars, if_neg hc, ih hcs]
      have hb : (c != ':') = true := by simp [hc]
      simp [List.takeWhile_cons, List.dropWhile_cons, hb]

theorem joinChars_splitColonChars : ∀ (cs : List Char),
    joinChars (splitColonChars cs) = cs.filter (fun c => c != ':') := by
  intro cs
  induction cs with
  | nil => rfl
  | cons c cs ih =>
    by_cases hc : c = ':'
    · subst hc
      rw [splitColonChars, if_pos rfl]
      simp [List.filter_cons, ih]
    · rw [splitColonChars, if_neg hc]
      rcases hsp : splitColonChars cs with _ | ⟨s, ss⟩
      · exact absurd hsp (splitColonChars_ne_nil cs)
      · rw [hsp] at ih
        have hb : (c != ':') = true := by simp [hc]
        simp only [joinChars_cons] at ih
        simp [List.filter_cons, hb, ← ih]

theorem processAlias_eq_spec (m : List (String × String)) (a : String) :
    processAlias m a =
      (match specAliasEntry a with
       | some kv => mapUpsert m kv.1 kv.2
       | none => m) := by
  unfold processAlias specAliasEntry
  by_cases hc : ':' ∈ a.toList
  · rw [splitColonChars_with_colon a.toList hc, if_pos hc]
    rcases hsp : splitColonChars ((a.toList.dropWhile (fun c => c != ':')).drop 1)
      with _ | ⟨r1, rest⟩
    · exact absurd hsp (splitColonChars_ne_nil _)
    · dsimp only
      have hj : joinChars (r1 :: rest) =
          ((a.toList.dropWhile (fun c => c != ':')).drop 1).filter (fun c => c != ':') := by
        rw [← hsp, joinChars_splitColonChars]
      rw [hj]
  · rw [splitColonChars_no_colon a.toList hc, if_neg hc]

theorem foldl_ext {α β : Type} (f g : β → α → β) (h : ∀ b a, f b a = g b a) :
    ∀ (l : List α) (b : β), l.foldl f b = l.foldl g b := by
  intro l
  induction l with
  | nil => intro b; rfl
  | cons x xs ih =>
    intro b
    simp only [List.foldl_cons, h]
    exact ih _

/-! ## Claim theorems -/

/-- exSteps_coherent discharges the check-evaluator contract for exSteps. -/
theorem exSteps_coherent : CoherentSteps exSteps := by
  intro sp hsp
  simp only [exSteps, exStepFail, exStepOK, List.mem_cons,
    List.not_mem_nil, or_false] at hsp
  rcases hsp with h | h | h <;> subst h <;> intro n <;> rfl

/-- filter_gt_one_attemptIdxs says every index from 2 upward passes the
sleep-guard filter. -/
theorem filter_gt_one_attemptIdxs : ∀ (n i : Nat), 2 ≤ i →
    (attemptIdxs i n).filter (fun j => decide (1 < j)) = attemptIdxs i n := by
  intro n
  induction n with
  | zero => intro i _; rfl
  | succ m ih =>
    intro i hi
    have h1 : (decide (1 < i)) = true := by
      simp
      omega
    simp [attemptIdxs, List.filter_cons, h1, ih (i + 1) (by omega)]

/-- Claim C1: the claim says that when the executor returns a result with a
nil error before the timeout, runTestStepExecutor returns that ExecutorResult
with a nil error.  The code cannot do so: the goroutine sends on `cherr`
before `ch`, so the select always resolves its error branch first and returns
a nil result paired with the (possibly nil) error, and the result branch of
the select is unreachable.  This theorem evaluates the embedded code: for
every returned result the ExecutorResult half is `none`, and in particular
the mock statusCode 200 result of the claim is discarded. -/
theorem runTestStepExecutor_discards_result :
    (∀ (timeout : Nat) (result : ExecutorResult) (err : Option String),
      runTestStepExecutor timeout (ExecEvent.runReturns result err) = (none, err)) ∧
    runTestStepExecutor 60 (ExecEvent.runReturns [("result.statusCode", "200")] none) =
      (none, none) :=
  ⟨fun _ _ _ => rfl, rfl⟩

/-- Claim C2: steps of one case run strictly in file order (the invocation
trace indices are consecutive from the first step); after any invoked step
that leaves the case with a Failure or Error record, no further step of the
case is invoked (every invoked step with a later invoked step left both
record lists empty); and a finished case never aborts its siblings (the suite
runner processes a later batch of cases exactly on the state left by the
earlier batch, for every split of the case list).  Requires the section 4.5
contract that a passing check-evaluator verdict carries no records. -/
theorem runTestCase_stop_on_first_record (steps : List StepSpec) (i : Nat) (tc : TestCase)
    (hco : CoherentSteps steps) (hF : tc.Failures = []) (hE : tc.Errors = []) :
    ((runTestCaseAux steps i tc).2.map Prod.fst =
      attemptIdxs i (runTestCaseAux steps i tc).2.length) ∧
    (∀ p ∈ (runTestCaseAux steps i tc).2, ∀ q ∈ (runTestCaseAux steps i tc).2,
      p.1 < q.1 → p.2.Failures = [] ∧ p.2.Errors = []) ∧
    (∀ (cs1 cs2 : List TestCaseDef) (ts : TestSuite),
      runTestSuite (cs1 ++ cs2) ts = runTestSuite cs2 (runTestSuite cs1 ts)) := by
  obtain ⟨h1, h2⟩ := runTestCaseAux_stop steps i tc hco hF hE
  exact ⟨h1, h2, fun cs1 cs2 ts => by simp [runTestSuite, List.foldl_append]⟩

/-- Witness for claim C2: on the concrete case [A(fails), B, C] the
hypotheses hold and the invocation trace is exactly [0], so B and C are never
invoked. -/
theorem runTestCase_stop_on_first_record_witness :
    CoherentSteps exSteps ∧
    ({} : TestCase).Failures = [] ∧ ({} : TestCase).Errors = [] ∧
    (runTestCaseAux exSteps 0 {}).2.map Prod.fst = [0] ∧
    (runTestCaseAux exSteps 0 {}).2.map Prod.fst =
      attemptIdxs 0 (runTestCaseAux exSteps 0 {}).2.length :=
  ⟨exSteps_coherent, rfl, rfl, by decide,
    (runTestCase_stop_on_first_record exSteps 0 {} exSteps_coherent rfl rfl).1⟩

/-- Counterexample for claim C3: a step whose single attempt fails with an
executor-call error (including a timeout error naming the configured
timeout) records the message in the Failures list of the case, while the
Errors list stays empty, so the attempt is not recorded as an Error record as
claimed. -/
theorem runTestStep_exec_error_in_failures :
    (runTestStep 0 0 (fun _ => AttemptOutcome.execError "connection refused") {}).1 =
      { Errors := [], Failures := [{ Value := "connection refused" }] } ∧
    (runTestStep 0 0 (fun _ => AttemptOutcome.execError (timeoutMsg 5)) {}).1 =
      { Errors := [], Failures := [{ Value := "Timeout after 5 second(s)" }] } := by
  decide

/-- Claim C3 (amended): every attempt whose executor call errors, and every
attempt whose per-attempt timeout fires (its message naming the configured
timeout value), is recorded as a Failure record appended to the Failures of
the enclosing case, one per attempt in order, and these attempts leave the
Errors of the case untouched. -/
theorem runTestStep_exec_errors_recorded_as_failures (r d : Nat) (M : Nat -> String)
    (tc : TestCase) :
    ((runTestStep r d (fun i => AttemptOutcome.execError (M i)) tc).1).Errors = tc.Errors ∧
    ((runTestStep r d (fun i => AttemptOutcome.execError (M i)) tc).1).Failures =
      tc.Failures ++ (attemptIdxs 0 (r + 1)).map (fun i => { Value := M i }) := by
  rw [runTestStep_execError_eq]
  exact ⟨rfl, rfl⟩

/-- Counterexample for claim C4: with retry count 0 a failing step makes
exactly one executor invocation, so no retry can have occurred, yet the
synthetic attempt-count Failure is still appended, because the loop counter
ends at 1 and the guard only checks `retry > 0`. -/
theorem runTestStep_synthetic_without_retry :
    ((runTestStep 0 0
        (fun _ => AttemptOutcome.checked false [] [{ Value := "check failed" }]) {}).2).execCalls = 1 ∧
    ((runTestStep 0 0
        (fun _ => AttemptOutcome.checked false [] [{ Value := "check failed" }]) {}).1).Failures =
      [{ Value := "check failed" }, { Value := failureAfterMsg 1 }] := by
  decide

/-- Claim C4 (amended): for every step configured with retry count r whose
checked results never pass, the executor is invoked exactly r + 1 times and
one synthetic Failure noting r + 1 attempts is appended after the records of
the last attempt, whenever the last attempt produced any failure or error
record; this includes r = 0, where no retry occurred. -/
theorem runTestStep_retry_bound_and_synthetic (r d : Nat) (E F : Nat -> List Failure)
    (tc : TestCase) (h : E r ≠ [] ∨ F r ≠ []) :
    ((runTestStep r d (fun i => AttemptOutcome.checked false (E i) (F i)) tc).2).execCalls = r + 1 ∧
    ((runTestStep r d (fun i => AttemptOutcome.checked false (E i) (F i)) tc).1).Failures =
      tc.Failures ++ F r ++ [{ Value := failureAfterMsg (r + 1) }] := by
  rw [runTestStep_checked_eq]
  refine ⟨rfl, ?_⟩
  dsimp only
  rw [if_pos (Or.symm h)]

/-- Witness for claim C4: retry count 2 makes three invocations and appends
the synthetic Failure noting 3 attempts. -/
theorem runTestStep_retry_bound_and_synthetic_witness :
    (([] : List Failure) ≠ [] ∨ [{ Value := "assert failed" }] ≠ ([] : List Failure)) ∧
    ((runTestStep 2 0
        (fun _ => AttemptOutcome.checked false [] [{ Value := "assert failed" }]) {}).2).execCalls = 3 ∧
    ((runTestStep 2 0
        (fun _ => AttemptOutcome.checked false [] [{ Value := "assert failed" }]) {}).1).Failures =
      ({} : TestCase).Failures ++ [{ Value := "assert failed" }] ++ [{ Value := failureAfterMsg 3 }] :=
  ⟨by decide,
    runTestStep_retry_bound_and_synthetic 2 0 (fun _ => [])
      (fun _ => [{ Value := "assert failed" }]) {} (by decide)⟩

/-- Counterexample for claim C5: a step with one retry whose two attempts
produce distinct check failures keeps only the record of the last attempt;
the record of the first attempt is not appended anywhere, so the records of
every attempt are not all accumulated as claimed. -/
theorem runTestStep_drops_first_attempt_records :
    (runTestStep 1 0
        (fun i => AttemptOutcome.checked false [] [{ Value := "attempt" ++ toString i }]) {}).1 =
      { Errors := [], Failures := [{ Value := "attempt1" }, { Value := failureAfterMsg 2 }] } ∧
    { Value := "attempt0" } ∉
      ((runTestStep 1 0
          (fun i => AttemptOutcome.checked false [] [{ Value := "attempt" ++ toString i }]) {}).1).Failures := by
  decide

/-- Claim C5 (amended): for every retried step whose checks never pass, only
the Error and Failure records of the final attempt are appended to the
records of the owning case (each attempt overwrites the previous triple), not
the records of every attempt. -/
theorem runTestStep_keeps_only_last_attempt (r d : Nat) (E F : Nat -> List Failure)
    (tc : TestCase) :
    ((runTestStep r d (fun i => AttemptOutcome.checked false (E i) (F i)) tc).1).Errors =
      tc.Errors ++ E r ∧
    ((runTestStep r d (fun i => AttemptOutcome.checked false (E i) (F i)) tc).1).Failures =
      tc.Failures ++ F r ++
        (if F r ≠ [] ∨ E r ≠ [] then [{ Value := failureAfterMsg (r + 1) }] else []) := by
  rw [runTestStep_checked_eq]
  exact ⟨rfl, rfl⟩

/-- Counterexample for claim C6: a run of one passing two-case suite with one
skipped case ends with Total equal to 4 while the sum of suite.Total over the
(single, non-dropped) suite is 2, because the skipped case is counted in
TotalOK and twice in TotalSkipped. -/
theorem processSuites_total_ne_sum_suite_totals :
    (processSuites [c6suite]).Total ≠
      ([c6suite].map (fun cs => (runTestSuite cs (parseSuite cs)).Total)).sum ∧
    (processSuites [c6suite]).Total = 4 ∧
    ([c6suite].map (fun cs => (runTestSuite cs (parseSuite cs)).Total)).sum = 2 := by
  decide

/-- Claim C6 (amended): for every completed run the final aggregate satisfies
Total = TotalOK + TotalKO + TotalSkipped (the collector recomputes Total from
the three counters after every suite), but Total does not in general equal
the sum of suite.Total over the non-dropped suites. -/
theorem processSuites_total_partition (suites : List (List TestCaseDef)) :
    (processSuites suites).Total =
      (processSuites suites).TotalOK + (processSuites suites).TotalKO +
        (processSuites suites).TotalSkipped := by
  have key : ∀ (l : List (List TestCaseDef)) (tr : Tests),
      tr.Total = tr.TotalOK + tr.TotalKO + tr.TotalSkipped →
      (l.foldl (fun tr cs => collectSuite tr cs.length (runTestSuite cs (parseSuite cs))) tr).Total =
        (l.foldl (fun tr cs => collectSuite tr cs.length (runTestSuite cs (parseSuite cs))) tr).TotalOK +
        (l.foldl (fun tr cs => collectSuite tr cs.length (runTestSuite cs (parseSuite cs))) tr).TotalKO +
        (l.foldl (fun tr cs => collectSuite tr cs.length (runTestSuite cs (parseSuite cs))) tr).TotalSkipped := by
    intro l
    induction l with
    | nil => intro tr h; exact h
    | cons cs rest ih =>
      intro tr h
      simp only [List.foldl_cons]
      apply ih
      have := collectSuite_sum_invariant tr cs.length (runTestSuite cs (parseSuite cs))
      omega
  exact key suites {} rfl

/-- Counterexample for claim C7: on the input "A:b:c" the code rejoins the
remainder with the empty separator and maps A to "bc", not to "b:c" as the
claim (rejoining with a colon) would give. -/
theorem processAliases_drops_interior_colons :
    processAliases ["A:b:c"] = [("A", "bc")] ∧
    claimProcessAliases ["A:b:c"] = [("A", "b:c")] ∧
    processAliases ["A:b:c"] ≠ claimProcessAliases ["A:b:c"] := by
  decide

/-- Claim C7 (amended): every alias string is split on the colon; the first
token becomes the key and the remainder concatenated with the empty separator
(interior colons dropped) becomes the value; entries with no colon are
silently skipped.  The claimed example still holds: ["HOST:example.com",
"bad-entry"] yields exactly the mapping of HOST to "example.com". -/
theorem processAliases_amended_spec :
    (∀ l : List String, processAliases l = specProcessAliases l) ∧
    processAliases ["HOST:example.com", "bad-entry"] = [("HOST", "example.com")] := by
  constructor
  · intro l
    unfold processAliases specProcessAliases
    exact foldl_ext _ _ processAlias_eq_spec l []
  · decide

/-- Claim C8: for a step with delay d and at least two retries whose checks
never pass, the recorded sleep trace consists of exactly one d-second sleep
before each attempt from the third on (attempt indices 2 to r): the first
retry (attempt index 1) fires with no sleep, and every subsequent retry is
preceded by a d-second sleep. -/
theorem runTestStep_sleep_from_second_retry (r d : Nat) (E F : Nat -> List Failure)
    (tc : TestCase) (h : 2 ≤ r) :
    ((runTestStep r d (fun i => AttemptOutcome.checked false (E i) (F i)) tc).2).sleeps =
      (attemptIdxs 2 (r - 1)).map (fun i => (i, d)) := by
  rw [runTestStep_checked_eq]
  dsimp only
  obtain ⟨m, rfl⟩ : ∃ m, r = m + 2 := ⟨r - 2, by omega⟩
  unfold sleepTrace
  simp [attemptIdxs, List.filter_cons, filter_gt_one_attemptIdxs m 3 (by omega)]

/-- Witness for claim C8: with retry count 2 and delay 7 the sleep trace is
exactly one 7-second sleep before attempt 2. -/
theorem runTestStep_sleep_from_second_retry_witness :
    2 ≤ 2 ∧
    ((runTestStep 2 7 (fun _ => AttemptOutcome.checked false [] []) {}).2).sleeps =
      (attemptIdxs 2 (2 - 1)).map (fun i => (i, 7)) :=
  ⟨by decide,
    runTestStep_sleep_from_second_retry 2 7 (fun _ => []) (fun _ => []) {} (by decide)⟩

/-- Claim C9: when every case carries a 0-or-1 Skipped marker, a suite with k
skipped cases finishes with Skipped = 2 * k (k from the parse-phase scan plus
k added again by the suite runner) and contributes 2 * k to TotalSkipped of
the run. -/
theorem runTestSuite_skipped_double_counted (cases : List TestCaseDef) (tr : Tests)
    (h : ∀ tc ∈ cases, tc.Skipped = 0 ∨ tc.Skipped = 1) :
    (runTestSuite cases (parseSuite cases)).Skipped =
      2 * (cases.filter (fun tc => tc.Skipped == 1)).length ∧
    (collectSuite tr cases.length (runTestSuite cases (parseSuite cases))).TotalSkipped =
      tr.TotalSkipped + 2 * (cases.filter (fun tc => tc.Skipped == 1)).length := by
  have h1 := runTestSuite_Skipped cases (parseSuite cases)
  have h2 := sum_skipped_eq_count cases h
  have h3 : (parseSuite cases).Skipped =
      (cases.filter (fun tc => tc.Skipped == 1)).length := rfl
  have hA : (runTestSuite cases (parseSuite cases)).Skipped =
      2 * (cases.filter (fun tc => tc.Skipped == 1)).length := by
    rw [h1, h2, h3]
    omega
  exact ⟨hA, by rw [collectSuite_TotalSkipped, hA]⟩

/-- Witness for claim C9: a suite with two skipped cases among three finishes
with Skipped = 4 and contributes 4 to TotalSkipped. -/
theorem runTestSuite_skipped_double_counted_witness :
    (∀ tc ∈ exCases, tc.Skipped = 0 ∨ tc.Skipped = 1) ∧
    (runTestSuite exCases (parseSuite exCases)).Skipped =
      2 * (exCases.filter (fun tc => tc.Skipped == 1)).length ∧
    (collectSuite {} exCases.length (runTestSuite exCases (parseSuite exCases))).TotalSkipped =
      ({} : Tests).TotalSkipped + 2 * (exCases.filter (fun tc => tc.Skipped == 1)).length :=
  ⟨by decide, runTestSuite_skipped_double_counted exCases {} (by decide)⟩

/-- Claim C10: a collected suite with Failures = 0 adds its full case count
to TotalOK and nothing to TotalKO, whatever its Errors counter is; indeed the
collector never reads the Errors counter, so replacing it by zero leaves the
whole collected aggregate unchanged. -/
theorem collectSuite_zero_failures_ignores_errors (tr : Tests) (nCases e sk tot : Nat) :
    (collectSuite tr nCases ⟨0, e, sk, tot⟩).TotalOK = tr.TotalOK + nCases ∧
    (collectSuite tr nCases ⟨0, e, sk, tot⟩).TotalKO = tr.TotalKO ∧
    collectSuite tr nCases ⟨0, e, sk, tot⟩ = collectSuite tr nCases ⟨0, 0, sk, tot⟩ := by
  refine ⟨?_, ?_, rfl⟩ <;>
  · unfold collectSuite
    simp only [apply_ite Tests.TotalOK, apply_ite Tests.TotalKO, ite_self]
    split_ifs <;> simp_all


end Venom
